import Mathlib

/-!
Verification development for the textcut Edit Decision Engine.

Shallow embedding of the core of `backend/app`:
* the Range Algebra (`calculate_deleted_ranges`, `calculate_kept_ranges`
  from `app/tasks/export.py`),
* the Timecode Codec (`seconds_to_timecode`),
* the CMX3600 exporter body (`generate_edl_file`),
* the EDL save endpoint's version/validation logic
  (`save_edl` from `app/routers/transcripts.py`),
* the agentic timeline builder (`AIAgent.run`, `AIAgent._build_timeline`,
  and the filter-graph construction of `AIAgent._render_video`
  from `app/services/ai_agent.py`).

Python `float` values are modelled as rationals (`ℚ`); Python dictionaries
carrying optional keys are modelled as structures with `Option` fields;
the string-tagged operation dictionaries are modelled as a sum type with an
`other` constructor for unrecognised tags.
-/

namespace TextCut

/-- A time range `{start, end}` (the Python dict); `end` is a Lean keyword,
so the field is called `stop`. -/
structure TimeRange where
  start : ℚ
  stop : ℚ
deriving DecidableEq, Repr

/-- A transcribed word `{text, start, end}`. -/
structure Word where
  text : String
  start : ℚ
  stop : ℚ
deriving DecidableEq, Repr

/-- A transcript segment `{id, speaker, start, end, text, words}`. -/
structure Segment where
  id : ℕ
  speaker : String
  start : ℚ
  stop : ℚ
  text : String
  words : List Word
deriving DecidableEq, Repr

/-- One `{segment_id, word_indices}` item of a `delete_words` operation. -/
structure WordsItem where
  segment_id : ℕ
  word_indices : List ℕ
deriving DecidableEq, Repr

/-- A clip proposed to `create_timeline`: every key is optional in the tool
schema, mirrored by `Option` fields.  `repeat` and `end` are Lean keywords,
so the fields are called `repeatCount` and `stop`. -/
structure ClipArg where
  segment_id : Option ℕ
  start : Option ℚ
  stop : Option ℚ
  text : Option String
  repeatCount : Option ℕ
  speed : Option ℚ
deriving DecidableEq, Repr

/-- An EDL operation as stored in the log: the code dispatches on the string
`op["type"]`, so unrecognised tags are kept as `other`. -/
inductive Operation where
  | delete_segments (segment_ids : List ℕ)
  | delete_words (items : List WordsItem)
  | delete_silences (time_ranges : List TimeRange)
  | timeline (clips : List ClipArg)
  | other (tag : String)
deriving DecidableEq, Repr

/-- Comparison used by `sorted(..., key=lambda x: x["start"])`. -/
def startLE (a b : TimeRange) : Prop := a.start ≤ b.start

instance : DecidableRel startLE := fun a b =>
  inferInstanceAs (Decidable (a.start ≤ b.start))

instance : IsTotal TimeRange startLE := ⟨fun a b => le_total a.start b.start⟩

instance : IsTrans TimeRange startLE := ⟨fun _ _ _ => le_trans⟩

/-- Python's `sorted(ranges, key=lambda x: x["start"])`: a stable sort by
`start` (insertion sort is stable, hence extensionally the same function). -/
def sortRanges (l : List TimeRange) : List TimeRange :=
  List.insertionSort startLE l

/-- The merge sweep of `calculate_deleted_ranges` (export.py lines 157-162),
carrying the currently open merged range `cur`:
`if merged and r["start"] <= merged[-1]["end"]: merged[-1]["end"] = max(...)
else: merged.append(r)`. -/
def mergeAux (cur : TimeRange) : List TimeRange → List TimeRange
  | [] => [cur]
  | r :: rest =>
    if r.start ≤ cur.stop then mergeAux ⟨cur.start, max cur.stop r.stop⟩ rest
    else cur :: mergeAux r rest

/-- Sort-then-sweep merge of emitted deleted ranges (export.py 155-164). -/
def mergeRanges (ds : List TimeRange) : List TimeRange :=
  match sortRanges ds with
  | [] => []
  | r :: rest => mergeAux r rest

/-- Last-occurrence-wins lookup, mirroring
`segment_map = {seg["id"]: seg for seg in segments}`. -/
def findSeg (segments : List Segment) (i : ℕ) : Option Segment :=
  segments.foldl (fun acc s => if s.id = i then some s else acc) none

/-- The ranges one operation appends to `deleted_ranges`
(export.py 121-153): unknown segment ids and out-of-range word indices are
skipped, and any tag other than the three delete forms contributes nothing. -/
def emitRanges (segments : List Segment) : Operation → List TimeRange
  | .delete_segments ids =>
      ids.filterMap fun i => (findSeg segments i).map fun s => ⟨s.start, s.stop⟩
  | .delete_silences trs =>
      trs.map fun tr => ⟨tr.start, tr.stop⟩
  | .delete_words items =>
      items.flatMap fun it =>
        match findSeg segments it.segment_id with
        | none => []
        | some s =>
            it.word_indices.filterMap fun idx =>
              if h : idx < s.words.length then
                some ⟨(s.words.get ⟨idx, h⟩).start, (s.words.get ⟨idx, h⟩).stop⟩
              else none
  | .timeline _ => []
  | .other _ => []

/-- `calculate_deleted_ranges(segments, operations)` (export.py 114-164):
emit ranges per operation in order, then sort and merge. -/
def calculate_deleted_ranges (segments : List Segment)
    (operations : List Operation) : List TimeRange :=
  mergeRanges (operations.flatMap (emitRanges segments))

/-- The loop of `calculate_kept_ranges` (export.py 345-354) over the sorted
deleted ranges, carrying `current`; the trailing
`if current < duration: kept.append(...)` is the base case. -/
def keptAux (T : ℚ) : ℚ → List TimeRange → List TimeRange
  | current, [] => if current < T then [⟨current, T⟩] else []
  | current, d :: rest =>
    if current < d.start then
      ⟨current, d.start⟩ :: keptAux T (max current d.stop) rest
    else keptAux T (max current d.stop) rest

/-- `calculate_kept_ranges(duration, deleted_ranges)` (export.py 340-356). -/
def calculate_kept_ranges (T : ℚ) (ds : List TimeRange) : List TimeRange :=
  if ds = [] then [⟨0, T⟩] else keptAux T 0 (sortRanges ds)

/-- Python `%` on floats with a positive right operand:
`a - b * floor(a / b)`. -/
def qmod (a b : ℚ) : ℚ := a - b * (⌊a / b⌋ : ℤ)

/-- Python `int(...)` on a float: truncation toward zero. -/
def pyInt (q : ℚ) : ℤ := if 0 ≤ q then ⌊q⌋ else -⌊-q⌋

/-- The four components computed by `seconds_to_timecode`
(export.py 361-364); `seconds // 3600` and `// 60` floor, `int(...)` of the
`%` results truncates toward zero. -/
structure Timecode where
  hours : ℤ
  minutes : ℤ
  secs : ℤ
  frames : ℤ
deriving DecidableEq, Repr

/-- Components of `seconds_to_timecode(seconds, frame_rate)`. -/
def timecodeParts (s : ℚ) (fr : ℕ) : Timecode :=
  ⟨⌊s / 3600⌋, ⌊qmod s 3600 / 60⌋, pyInt (qmod s 60), pyInt (qmod s 1 * fr)⟩

/-- Python `f"{n:02d}"` for the values produced here (all nonnegative). -/
def pad2 (n : ℤ) : String :=
  if 0 ≤ n ∧ n < 10 then "0" ++ toString n else toString n

/-- `seconds_to_timecode(seconds, frame_rate) -> "HH:MM:SS:FF"`
(export.py 359-366). -/
def seconds_to_timecode (s : ℚ) (fr : ℕ) : String :=
  let p := timecodeParts s fr
  pad2 p.hours ++ ":" ++ pad2 p.minutes ++ ":" ++ pad2 p.secs ++ ":" ++
    pad2 p.frames

/-- Python `str(n).zfill(3)` for natural numbers. -/
def zfill3 (n : ℕ) : String :=
  if n < 10 then "00" ++ toString n
  else if n < 100 then "0" ++ toString n
  else toString n

/-- One CMX3600 edit line (export.py 323-331) for the range `r` at 0-based
index `i` with running record position `pos`. -/
def edlLine (fr : ℕ) (i : ℕ) (pos : ℚ) (r : TimeRange) : String :=
  zfill3 (i + 1) ++ "  001      V     C        " ++
    seconds_to_timecode r.start fr ++ " " ++
    seconds_to_timecode r.stop fr ++ " " ++
    seconds_to_timecode pos fr ++ " " ++
    seconds_to_timecode (pos + (r.stop - r.start)) fr

/-- The edit lines of `generate_edl_file` (export.py 320-334): 0-based index
`i` and record position `pos` advance together. -/
def edlBodyAux (fr : ℕ) : ℕ → ℚ → List TimeRange → List String
  | _, _, [] => []
  | i, pos, r :: rest =>
      edlLine fr i pos r :: edlBodyAux fr (i + 1) (pos + (r.stop - r.start)) rest

/-- `generate_edl_file` (export.py 303-337) as the list of lines written
(the file is their `"\n"`-join). -/
def generate_edl_file (project_name : String) (duration : ℚ)
    (deleted_ranges : List TimeRange) (fr : ℕ) : List String :=
  ("TITLE: " ++ project_name) :: "FCM: NON-DROP FRAME" :: "" ::
    edlBodyAux fr 0 0 (calculate_kept_ranges duration deleted_ranges)

/-- A point lies in one of the closed ranges of a list. -/
def inRanges (rs : List TimeRange) (x : ℚ) : Prop :=
  ∃ r ∈ rs, r.start ≤ x ∧ x ≤ r.stop

/-- One entry of the timeline built by `AIAgent._build_timeline`
(ai_agent.py 334-366). -/
structure TimelineClip where
  segment_id : Option ℕ
  start : ℚ
  stop : ℚ
  text : String
  repeatCount : ℕ
  speed : ℚ
deriving DecidableEq, Repr

/-- Round half to even, as Python's float formatting does. -/
def rhe (x : ℚ) : ℤ :=
  let f := ⌊x⌋
  let r := x - f
  if r < 1 / 2 then f
  else if 1 / 2 < r then f + 1
  else if f % 2 = 0 then f else f + 1

/-- Python `f"{q:.1f}"`. -/
def fmt1 (q : ℚ) : String :=
  let n := rhe (q * 10)
  if n < 0 then "-" ++ toString (-n / 10) ++ "." ++ toString (-n % 10)
  else toString (n / 10) ++ "." ++ toString (n % 10)

/-- Default display text of a custom clip:
`f"{start:.1f}s - {end:.1f}s"` (ai_agent.py 361). -/
def defaultText (s e : ℚ) : String :=
  fmt1 s ++ "s - " ++ fmt1 e ++ "s"

/-- The custom-range branch of `_build_timeline` (ai_agent.py 353-364):
needs both `start` and `end` keys and `end > start`, else the clip is
dropped. -/
def customClip (clip : ClipArg) : Option TimelineClip :=
  match clip.start, clip.stop with
  | some s, some e =>
      if s < e then
        some ⟨none, s, e, clip.text.getD (defaultText s e),
          clip.repeatCount.getD 1, clip.speed.getD 1⟩
      else none
  | _, _ => none

/-- `AIAgent._build_timeline(clips, segments)` (ai_agent.py 334-366): a
known `segment_id` takes its range and text from the referenced segment;
otherwise — including a `segment_id` that is present but unknown — the
clip falls through to the custom-range branch. -/
def buildTimeline (segments : List Segment) : List ClipArg → List TimelineClip
  | [] => []
  | clip :: rest =>
    match clip.segment_id with
    | some sid =>
      match findSeg segments sid with
      | some seg =>
          ⟨some sid, seg.start, seg.stop, seg.text, clip.repeatCount.getD 1,
            clip.speed.getD 1⟩ :: buildTimeline segments rest
      | none =>
        match customClip clip with
        | some c => c :: buildTimeline segments rest
        | none => buildTimeline segments rest
    | none =>
      match customClip clip with
      | some c => c :: buildTimeline segments rest
      | none => buildTimeline segments rest

/-- One ffmpeg filter step emitted by `_render_video` (ai_agent.py
400-423), with the stream labels abstracted away. -/
inductive FilterOp where
  | trim (s e : ℚ)
  | atrim (s e : ℚ)
  | setptsReset
  | asetptsReset
  | setptsScale (factor : ℚ)
  | atempo (factor : ℚ)
deriving DecidableEq, Repr

/-- The video and audio filter chains of a single expanded clip instance. -/
structure TrimInstance where
  vchain : List FilterOp
  achain : List FilterOp
deriving DecidableEq, Repr

/-- The filters one repeat instance of a clip receives (ai_agent.py
413-423): trim to `[start, end]`, reset PTS, and when `speed != 1.0` scale
video PTS by `1/speed` and audio tempo by `speed`. -/
def clipInstance (c : TimelineClip) : TrimInstance :=
  ⟨[.trim c.start c.stop, .setptsReset] ++
      (if c.speed ≠ 1 then [.setptsScale (1 / c.speed)] else []),
    [.atrim c.start c.stop, .asetptsReset] ++
      (if c.speed ≠ 1 then [.atempo c.speed] else [])⟩

/-- The expansion loop of `_render_video` (ai_agent.py 404-423): for each
clip in timeline order, `repeat` consecutive instances. -/
def renderPlan : List TimelineClip → List TrimInstance
  | [] => []
  | c :: rest => List.replicate c.repeatCount (clipInstance c) ++ renderPlan rest

/-- A tool invocation returned by the model. -/
inductive ToolCall where
  | create_timeline (clips : List ClipArg)
  | finish_editing (summary : String)
  | unknown (name : String)
deriving DecidableEq, Repr

/-- One model response: optional text content plus requested tool calls. -/
structure ModelResponse where
  content : Option String
  tool_calls : List ToolCall
deriving DecidableEq, Repr

/-- The mutable state of `AIAgent.run`'s ReAct loop (ai_agent.py 200-204),
plus the list of transcoder invocations as instrumentation. -/
structure LoopState where
  timeline : List TimelineClip
  final_reply : String
  output_video : Option String
  finished : Bool
  iteration : ℕ
  renders : List (List TimelineClip)
deriving DecidableEq, Repr

/-- The result record of `AIAgent.run` (ai_agent.py 327-332), with the
iteration count and the recorded transcoder invocations added. -/
structure RunResult where
  reply : String
  timeline : List TimelineClip
  output_video : Option String
  finished : Bool
  iterations : ℕ
  renders : List (List TimelineClip)
deriving DecidableEq, Repr

/-- Python `assistant_message.content or "完成"`: `None` and the empty
string both fall back. -/
def contentOrDone : Option String → String
  | none => "完成"
  | some s => if s = "" then "完成" else s

/-- The tool-dispatch `for` loop of one iteration (ai_agent.py 236-291).
The external transcoder is abstracted as `render`; a successful
`finish_editing` sets `finished` and breaks out of the remaining calls. -/
def processTools (render : List TimelineClip → Option String)
    (segments : List Segment) : LoopState → List ToolCall → LoopState
  | st, [] => st
  | st, tc :: rest =>
    match tc with
    | .create_timeline clips =>
        processTools render segments
          { st with timeline := buildTimeline segments clips } rest
    | .finish_editing summary =>
        if st.timeline = [] then processTools render segments st rest
        else
          let out := render st.timeline
          let st' := { st with output_video := out,
                               renders := st.renders ++ [st.timeline] }
          match out with
          | some _ =>
              { st' with final_reply := summary ++ "\n\n视频已渲染完成。",
                         finished := true }
          | none => processTools render segments st' rest
    | .unknown _ => processTools render segments st rest

/-- The `while iteration < self.max_iterations` loop (ai_agent.py 211-322),
with `fuel = max_iterations - iteration` as the structural measure.  A stub
model is a total function from the (1-based) iteration number to its
response. -/
def runLoop (model : ℕ → ModelResponse)
    (render : List TimelineClip → Option String) (segments : List Segment) :
    ℕ → LoopState → LoopState
  | 0, st => st
  | fuel + 1, st =>
    let iter := st.iteration + 1
    let resp := model iter
    if resp.tool_calls = [] then
      { st with iteration := iter, final_reply := contentOrDone resp.content }
    else
      let st' := processTools render segments { st with iteration := iter }
        resp.tool_calls
      if st'.finished then st' else runLoop model render segments fuel st'

/-- `self.max_iterations = 10` (ai_agent.py 81). -/
def max_iterations : ℕ := 10

/-- `AIAgent.run` (ai_agent.py 161-332) with a configured client: run the
ReAct loop, then overwrite the reply with the max-iterations message when
`iteration >= self.max_iterations` (ai_agent.py 324-325). -/
def run (model : ℕ → ModelResponse)
    (render : List TimelineClip → Option String)
    (segments : List Segment) : RunResult :=
  let st := runLoop model render segments max_iterations ⟨[], "", none, false, 0, []⟩
  ⟨if max_iterations ≤ st.iteration then "达到最大迭代次数" else st.final_reply,
    st.timeline, st.output_video, st.finished, st.iteration, st.renders⟩

/-- Rejection reasons of `save_edl` (transcripts.py 141-161). -/
inductive SaveError where
  | versionConflict
  | invalidSegmentId
deriving DecidableEq, Repr

/-- The persistent state `save_edl` reads: the project's transcript (if
any) and the stored EDL rows `(version, operations)`. -/
structure DBState where
  transcript : Option (List Segment)
  log : List (ℕ × List Operation)
deriving DecidableEq, Repr

/-- `order_by(EDL.version.desc()).first()` then
`latest_edl.version if latest_edl else 0` (transcripts.py 131-140). -/
def currentVersion (log : List (ℕ × List Operation)) : ℕ :=
  log.foldl (fun m e => max m e.1) 0

/-- The validation loop of `save_edl` (transcripts.py 154-161): only
`delete_segments` operations have their segment ids checked. -/
def opValid (validIds : List ℕ) : Operation → Bool
  | .delete_segments ids => ids.all fun i => validIds.contains i
  | _ => true

/-- All operations pass the `save_edl` validation loop. -/
def validateOps (validIds : List ℕ) (ops : List Operation) : Bool :=
  ops.all (opValid validIds)

/-- `save_edl` (transcripts.py 116-178): version check first, then — when a
transcript exists — segment-id validation, then append of the new row.
Rejections raise before `db.add`, so the log is unchanged on error. -/
def saveEdl (st : DBState) (version : ℕ) (ops : List Operation) :
    Except SaveError (List (ℕ × List Operation)) :=
  if version ≠ currentVersion st.log + 1 then .error .versionConflict
  else
    match st.transcript with
    | some segs =>
        if validateOps (segs.map (·.id)) ops then .ok (st.log ++ [(version, ops)])
        else .error .invalidSegmentId
    | none => .ok (st.log ++ [(version, ops)])

/-- Ranges strictly separated: the first ends before the second starts. -/
def sepLT (a b : TimeRange) : Prop := a.stop < b.start

/-- Bounds hypothesis of claim C1 on one deleted range. -/
def boundedRange (T : ℚ) (r : TimeRange) : Prop :=
  0 ≤ r.start ∧ r.start < r.stop ∧ r.stop ≤ T

/-- Total duration of a list of ranges. -/
def sumDur (l : List TimeRange) : ℚ :=
  (l.map fun r => r.stop - r.start).sum

/-- `True` when the save would pass the segment-id validation loop: with no
transcript there is nothing to validate. -/
def validationOk (st : DBState) (ops : List Operation) : Bool :=
  match st.transcript with
  | some segs => validateOps (segs.map (·.id)) ops
  | none => true

/-- `Bool` acceptance of a save result. -/
def isOkB : Except SaveError (List (ℕ × List Operation)) → Bool
  | .ok _ => true
  | .error _ => false

/-- The operation with its unknown-segment references removed. -/
def filterKnownOp (segments : List Segment) : Operation → Operation
  | .delete_segments ids =>
      .delete_segments (ids.filter fun i => (findSeg segments i).isSome)
  | .delete_words items =>
      .delete_words (items.filter fun it => (findSeg segments it.segment_id).isSome)
  | op => op

/-- Whether an operation is of the `delete_segments` form. -/
def isDeleteSegmentsOp : Operation → Bool
  | .delete_segments _ => true
  | _ => false

/-- Whether an operation carries one of the three delete-style tags. -/
def isDeleteStyle : Operation → Bool
  | .delete_segments _ => true
  | .delete_words _ => true
  | .delete_silences _ => true
  | _ => false

/-- Per-clip resolution of `_build_timeline`, written declaratively: the
known-segment branch, else the custom-range branch. -/
def resolveClip (segments : List Segment) (clip : ClipArg) : Option TimelineClip :=
  match clip.segment_id with
  | some sid =>
    match findSeg segments sid with
    | some seg =>
        some ⟨some sid, seg.start, seg.stop, seg.text,
          clip.repeatCount.getD 1, clip.speed.getD 1⟩
    | none => customClip clip
  | none => customClip clip

/-- A stub model that never requests a tool. -/
def stubNeverTool : ℕ → ModelResponse := fun _ => ⟨some "no edits", []⟩

/-- A stub model that calls `create_timeline` with no clips for nine
iterations and then answers in plain text. -/
def stubLateText : ℕ → ModelResponse := fun i =>
  if i < 10 then ⟨none, [.create_timeline []]⟩ else ⟨some "hello", []⟩

/-- A stub transcoder that always fails. -/
def stubRenderNone : List TimelineClip → Option String := fun _ => none

example : mergeRanges [⟨0, 2⟩, ⟨2, 5⟩] = [⟨0, 5⟩] := by
  norm_num [mergeRanges, sortRanges, startLE, mergeAux]

lemma mergeAux_props (rest : List TimeRange) :
    ∀ cur : TimeRange, (∀ r ∈ rest, cur.start ≤ r.start) →
    rest.Pairwise startLE →
    ((mergeAux cur rest).Pairwise fun a b => sepLT a b ∧ startLE a b) ∧
      ∀ m ∈ mergeAux cur rest, cur.start ≤ m.start := by
  induction rest with
  | nil =>
      intro cur _ _
      simp [mergeAux]
  | cons r rest ih =>
      intro cur hstart hsorted
      rw [List.pairwise_cons] at hsorted
      obtain ⟨hr, hrest⟩ := hsorted
      by_cases hle : r.start ≤ cur.stop
      · simp only [mergeAux, if_pos hle]
        have harg : ∀ x ∈ rest,
            (TimeRange.mk cur.start (max cur.stop r.stop)).start ≤ x.start :=
          fun x hx => hstart x (List.mem_cons_of_mem _ hx)
        exact ih ⟨cur.start, max cur.stop r.stop⟩ harg hrest
      · simp only [mergeAux, if_neg hle]
        push_neg at hle
        have ihr := ih r hr hrest
        have hcr : cur.start ≤ r.start := hstart r (List.mem_cons_self r rest)
        constructor
        · rw [List.pairwise_cons]
          refine ⟨fun m hm => ?_, ihr.1⟩
          have h2 : r.start ≤ m.start := ihr.2 m hm
          exact ⟨lt_of_lt_of_le hle h2, le_trans hcr h2⟩
        · intro m hm
          rcases List.mem_cons.mp hm with h | h
          · exact h ▸ le_refl _
          · exact le_trans hcr (ihr.2 m h)

lemma mergeAux_eq_self (rest : List TimeRange) :
    ∀ cur : TimeRange, (∀ m ∈ rest, sepLT cur m) →
    rest.Pairwise sepLT → mergeAux cur rest = cur :: rest := by
  induction rest with
  | nil => intro cur _ _; rfl
  | cons r rest ih =>
      intro cur hsep hsorted
      rw [List.pairwise_cons] at hsorted
      have h1 : cur.stop < r.start := hsep r (List.mem_cons_self r rest)
      rw [mergeAux, if_neg (not_le.mpr h1), ih r hsorted.1 hsorted.2]

lemma sortRanges_sorted (l : List TimeRange) :
    (sortRanges l).Pairwise startLE :=
  List.sorted_insertionSort startLE l

lemma sortRanges_perm (l : List TimeRange) : List.Perm (sortRanges l) l :=
  List.perm_insertionSort startLE l

lemma mergeRanges_pairwise (ds : List TimeRange) :
    (mergeRanges ds).Pairwise fun a b => sepLT a b ∧ startLE a b := by
  rw [mergeRanges]
  rcases h : sortRanges ds with _ | ⟨r, rest⟩
  · exact List.Pairwise.nil
  · have hs := sortRanges_sorted ds
    rw [h, List.pairwise_cons] at hs
    exact (mergeAux_props rest r hs.1 hs.2).1

lemma kept_merge_main (T : ℚ) (rest : List TimeRange) :
    ∀ cur : TimeRange, (∀ r ∈ rest, cur.start ≤ r.start) →
    rest.Pairwise startLE →
    0 ≤ cur.start → cur.start < cur.stop → cur.stop ≤ T →
    (∀ r ∈ rest, boundedRange T r) →
    (∀ x : ℚ, cur.start ≤ x → x ≤ T →
        inRanges (keptAux T cur.stop rest) x ∨ inRanges (mergeAux cur rest) x) ∧
    (∀ k ∈ keptAux T cur.stop rest, ∀ d ∈ mergeAux cur rest,
        min k.stop d.stop ≤ max k.start d.start) ∧
    (∀ k ∈ keptAux T cur.stop rest, k.start < k.stop) ∧
    (∀ k ∈ keptAux T cur.stop rest, cur.stop ≤ k.start ∧ k.stop ≤ T) ∧
    (∀ d ∈ mergeAux cur rest, cur.start ≤ d.start ∧ d.stop ≤ T) := by
  induction rest with
  | nil =>
      intro cur _ _ _ hse hsT _
      refine ⟨?_, ?_, ?_, ?_, ?_⟩
      · intro x hx hxT
        by_cases hxc : x ≤ cur.stop
        · exact Or.inr ⟨cur, by simp [mergeAux], hx, hxc⟩
        · push_neg at hxc
          have hcT : cur.stop < T := lt_of_lt_of_le hxc hxT
          exact Or.inl ⟨⟨cur.stop, T⟩, by simp [keptAux, hcT], le_of_lt hxc, hxT⟩
      · intro k hk d hd
        simp only [keptAux] at hk
        rcases lt_or_le cur.stop T with hcT | hcT
        · rw [if_pos hcT, List.mem_singleton] at hk
          simp only [mergeAux, List.mem_singleton] at hd
          subst hk; subst hd
          exact le_trans (min_le_right _ _) (le_max_left _ _)
        · rw [if_neg (not_lt.mpr hcT)] at hk
          exact absurd hk (List.not_mem_nil k)
      · intro k hk
        simp only [keptAux] at hk
        rcases lt_or_le cur.stop T with hcT | hcT
        · rw [if_pos hcT, List.mem_singleton] at hk
          subst hk; exact hcT
        · rw [if_neg (not_lt.mpr hcT)] at hk
          exact absurd hk (List.not_mem_nil k)
      · intro k hk
        simp only [keptAux] at hk
        rcases lt_or_le cur.stop T with hcT | hcT
        · rw [if_pos hcT, List.mem_singleton] at hk
          subst hk; exact ⟨le_refl _, le_refl _⟩
        · rw [if_neg (not_lt.mpr hcT)] at hk
          exact absurd hk (List.not_mem_nil k)
      · intro d hd
        simp only [mergeAux, List.mem_singleton] at hd
        subst hd; exact ⟨le_refl _, hsT⟩
  | cons d rest ih =>
      intro cur hstart hsorted h0 hse hsT hb
      rw [List.pairwise_cons] at hsorted
      obtain ⟨hdrest, hrest⟩ := hsorted
      obtain ⟨hd0, hdse, hdT⟩ := hb d (List.mem_cons_self d rest)
      have hbrest : ∀ r ∈ rest, boundedRange T r :=
        fun r hr => hb r (List.mem_cons_of_mem _ hr)
      by_cases hA : d.start ≤ cur.stop
      · have hkept : keptAux T cur.stop (d :: rest) =
            keptAux T (max cur.stop d.stop) rest := by
          simp only [keptAux, if_neg (not_lt.mpr hA)]
        have hmerge : mergeAux cur (d :: rest) =
            mergeAux ⟨cur.start, max cur.stop d.stop⟩ rest := by
          simp only [mergeAux, if_pos hA]
        have ihc := ih ⟨cur.start, max cur.stop d.stop⟩
          (fun r hr => hstart r (List.mem_cons_of_mem _ hr)) hrest h0
          (lt_of_lt_of_le hse (le_max_left _ _)) (max_le hsT hdT) hbrest
        rw [hkept, hmerge]
        refine ⟨ihc.1, ihc.2.1, ihc.2.2.1, fun k hk => ?_, ihc.2.2.2.2⟩
        obtain ⟨h1, h2⟩ := ihc.2.2.2.1 k hk
        exact ⟨le_trans (le_max_left _ _) h1, h2⟩
      · push_neg at hA
        have hmax : max cur.stop d.stop = d.stop :=
          max_eq_right (le_of_lt (lt_trans hA hdse))
        have hkept : keptAux T cur.stop (d :: rest) =
            ⟨cur.stop, d.start⟩ :: keptAux T d.stop rest := by
          simp only [keptAux, if_pos hA, hmax]
        have hmerge : mergeAux cur (d :: rest) = cur :: mergeAux d rest := by
          simp only [mergeAux, if_neg (not_le.mpr hA)]
        have ihc := ih d hdrest hrest hd0 hdse hdT hbrest
        obtain ⟨cov, nov, nemp, kb, mb⟩ := ihc
        have hcd : cur.start ≤ d.start := hstart d (List.mem_cons_self d rest)
        rw [hkept, hmerge]
        refine ⟨?_, ?_, ?_, ?_, ?_⟩
        · intro x hx hxT
          by_cases hx1 : x ≤ cur.stop
          · exact Or.inr ⟨cur, List.mem_cons_self _ _, hx, hx1⟩
          · push_neg at hx1
            by_cases hx2 : x ≤ d.start
            · exact Or.inl ⟨⟨cur.stop, d.start⟩,
                List.mem_cons_self _ _, le_of_lt hx1, hx2⟩
            · push_neg at hx2
              rcases cov x (le_of_lt hx2) hxT with ⟨k, hk, hx3, hx4⟩ | ⟨m, hm, hx3, hx4⟩
              · exact Or.inl ⟨k, List.mem_cons_of_mem _ hk, hx3, hx4⟩
              · exact Or.inr ⟨m, List.mem_cons_of_mem _ hm, hx3, hx4⟩
        · intro k hk m hm
          rcases List.mem_cons.mp hk with hk0 | hk'
          · rcases List.mem_cons.mp hm with hm0 | hm'
            · subst hk0; subst hm0
              exact le_trans (min_le_right _ _) (le_max_left _ _)
            · subst hk0
              have h1 := (mb m hm').1
              exact le_trans (min_le_left _ _)
                (le_trans h1 (le_max_right _ _))
          · rcases List.mem_cons.mp hm with hm0 | hm'
            · subst hm0
              have h1 := (kb k hk').1
              have h2 := le_trans (le_of_lt (lt_trans hA hdse)) h1
              exact le_trans (min_le_right _ _)
                (le_trans h2 (le_max_left _ _))
            · exact nov k hk' m hm'
        · intro k hk
          rcases List.mem_cons.mp hk with hk0 | hk'
          · subst hk0; exact hA
          · exact nemp k hk'
        · intro k hk
          rcases List.mem_cons.mp hk with hk0 | hk'
          · subst hk0
            exact ⟨le_refl _, le_trans (le_of_lt hdse) hdT⟩
          · obtain ⟨h1, h2⟩ := kb k hk'
            exact ⟨le_trans (le_of_lt (lt_trans hA hdse)) h1, h2⟩
        · intro m hm
          rcases List.mem_cons.mp hm with hm0 | hm'
          · subst hm0; exact ⟨le_refl _, hsT⟩
          · obtain ⟨h1, h2⟩ := mb m hm'
            exact ⟨le_trans hcd h1, h2⟩

lemma mergeRanges_idem (ds : List TimeRange) :
    mergeRanges (mergeRanges ds) = mergeRanges ds := by
  have hp := mergeRanges_pairwise ds
  have hsorted : List.Sorted startLE (mergeRanges ds) :=
    hp.imp fun h => h.2
  have hsort_eq : sortRanges (mergeRanges ds) = mergeRanges ds :=
    List.Sorted.insertionSort_eq hsorted
  conv_lhs => rw [mergeRanges, hsort_eq]
  rcases h : mergeRanges ds with _ | ⟨c, rest⟩
  · rfl
  · rw [h, List.pairwise_cons] at hp
    exact mergeAux_eq_self rest c (fun m hm => (hp.1 m hm).1)
      (hp.2.imp fun h => h.1)

/-- C2: the merge step of the Range Algebra sorts by `start` and sweeps with
an inclusive boundary (touching ranges merge, as in the `[{0,2},{2,5}]`
example); its output is always sorted by `start` and pairwise
non-overlapping (each merged range ends strictly before the next starts),
and merging an already-merged list yields the same list. -/
theorem merge_sorted_nonoverlapping_idempotent :
    (∀ ds : List TimeRange, (mergeRanges ds).Pairwise startLE) ∧
    (∀ ds : List TimeRange, (mergeRanges ds).Pairwise sepLT) ∧
    (∀ ds : List TimeRange, mergeRanges (mergeRanges ds) = mergeRanges ds) ∧
    mergeRanges [⟨0, 2⟩, ⟨2, 5⟩] = [⟨0, 5⟩] :=
  ⟨fun ds => (mergeRanges_pairwise ds).imp fun h => h.2,
   fun ds => (mergeRanges_pairwise ds).imp fun h => h.1,
   mergeRanges_idem,
   by norm_num [mergeRanges, sortRanges, startLE, mergeAux]⟩

lemma qmod_nonneg (a b : ℚ) (hb : 0 < b) : 0 ≤ qmod a b := by
  have hfr := Int.fract_nonneg (a / b)
  have hb' : b ≠ 0 := ne_of_gt hb
  have h : qmod a b = b * Int.fract (a / b) := by
    rw [qmod, Int.fract, mul_sub, mul_div_cancel₀ _ hb']
  rw [h]
  exact mul_nonneg (le_of_lt hb) hfr

lemma qmod_lt (a b : ℚ) (hb : 0 < b) : qmod a b < b := by
  have hfr := Int.fract_lt_one (a / b)
  have hb' : b ≠ 0 := ne_of_gt hb
  have h : qmod a b = b * Int.fract (a / b) := by
    rw [qmod, Int.fract, mul_sub, mul_div_cancel₀ _ hb']
  rw [h]
  calc b * Int.fract (a / b) < b * 1 := by
        exact mul_lt_mul_of_pos_left hfr hb
    _ = b := mul_one b

/-- C8: for `seconds ≥ 0` and `frame_rate ≥ 1`, the timecode components are
the floor formulas of the spec (truncation, never rounding), and the frame
component lies in `0 .. frame_rate - 1`; the emitted string is the
`HH:MM:SS:FF` zero-padded rendering of those components. -/
theorem seconds_to_timecode_components (s : ℚ) (fr : ℕ) (hs : 0 ≤ s)
    (hfr : 1 ≤ fr) :
    (timecodeParts s fr).hours = ⌊s / 3600⌋ ∧
    (timecodeParts s fr).minutes = ⌊qmod s 3600 / 60⌋ ∧
    (timecodeParts s fr).secs = ⌊qmod s 60⌋ ∧
    (timecodeParts s fr).frames = ⌊qmod s 1 * fr⌋ ∧
    0 ≤ (timecodeParts s fr).frames ∧
    (timecodeParts s fr).frames ≤ (fr : ℤ) - 1 ∧
    seconds_to_timecode s fr =
      pad2 ⌊s / 3600⌋ ++ ":" ++ pad2 ⌊qmod s 3600 / 60⌋ ++ ":" ++
        pad2 ⌊qmod s 60⌋ ++ ":" ++ pad2 ⌊qmod s 1 * fr⌋ := by
  have h60 : (0 : ℚ) < 60 := by norm_num
  have h1 : (0 : ℚ) < 1 := by norm_num
  have hfr' : (0 : ℚ) < (fr : ℚ) := by
    have : (1 : ℚ) ≤ (fr : ℚ) := by exact_mod_cast hfr
    linarith
  have hsecs : pyInt (qmod s 60) = ⌊qmod s 60⌋ := by
    rw [pyInt, if_pos (qmod_nonneg s 60 h60)]
  have hfnn : 0 ≤ qmod s 1 * fr :=
    mul_nonneg (qmod_nonneg s 1 h1) (le_of_lt hfr')
  have hframes : pyInt (qmod s 1 * fr) = ⌊qmod s 1 * fr⌋ := by
    rw [pyInt, if_pos hfnn]
  have hfr_lt : qmod s 1 * fr < fr := by
    have := qmod_lt s 1 h1
    calc qmod s 1 * fr < 1 * fr := mul_lt_mul_of_pos_right this hfr'
      _ = fr := one_mul _
  have hflt : ⌊qmod s 1 * fr⌋ < (fr : ℤ) := by
    have : ((fr : ℤ) : ℚ) = (fr : ℚ) := by push_cast; ring
    exact Int.floor_lt.mpr (by rw [this]; exact hfr_lt)
  refine ⟨rfl, rfl, hsecs, hframes, ?_, ?_, ?_⟩
  · show 0 ≤ pyInt (qmod s 1 * fr)
    rw [hframes]
    exact Int.floor_nonneg.mpr hfnn
  · show pyInt (qmod s 1 * fr) ≤ (fr : ℤ) - 1
    rw [hframes]
    omega
  · rw [seconds_to_timecode]
    show pad2 (timecodeParts s fr).hours ++ ":" ++
        pad2 (timecodeParts s fr).minutes ++ ":" ++
        pad2 (timecodeParts s fr).secs ++ ":" ++
        pad2 (timecodeParts s fr).frames = _
    rw [show (timecodeParts s fr).hours = ⌊s / 3600⌋ from rfl,
      show (timecodeParts s fr).minutes = ⌊qmod s 3600 / 60⌋ from rfl,
      show (timecodeParts s fr).secs = pyInt (qmod s 60) from rfl,
      show (timecodeParts s fr).frames = pyInt (qmod s 1 * fr) from rfl,
      hsecs, hframes]

/-- Witness for C8 at `seconds = 3661.5`, `frame_rate = 30`
(`01:01:01:15`). -/
theorem seconds_to_timecode_components_witness :
    (timecodeParts (7323 / 2) 30).hours = ⌊(7323 / 2 : ℚ) / 3600⌋ ∧
    (timecodeParts (7323 / 2) 30).minutes = ⌊qmod (7323 / 2) 3600 / 60⌋ ∧
    (timecodeParts (7323 / 2) 30).secs = ⌊qmod (7323 / 2) 60⌋ ∧
    (timecodeParts (7323 / 2) 30).frames = ⌊qmod (7323 / 2) 1 * 30⌋ ∧
    0 ≤ (timecodeParts (7323 / 2) 30).frames ∧
    (timecodeParts (7323 / 2) 30).frames ≤ (30 : ℤ) - 1 ∧
    seconds_to_timecode (7323 / 2) 30 =
      pad2 ⌊(7323 / 2 : ℚ) / 3600⌋ ++ ":" ++
        pad2 ⌊qmod (7323 / 2) 3600 / 60⌋ ++ ":" ++
        pad2 ⌊qmod (7323 / 2) 60⌋ ++ ":" ++ pad2 ⌊qmod (7323 / 2) 1 * 30⌋ :=
  seconds_to_timecode_components (7323 / 2) 30 (by norm_num) (by norm_num)

lemma sumDur_cons (r : TimeRange) (l : List TimeRange) :
    sumDur (r :: l) = (r.stop - r.start) + sumDur l := by
  simp [sumDur]

lemma edlBodyAux_spec (fr : ℕ) (kept : List TimeRange) :
    ∀ (i : ℕ) (pos : ℚ),
      (edlBodyAux fr i pos kept).length = kept.length ∧
      ∀ j, j < kept.length →
        (edlBodyAux fr i pos kept).getD j "" =
          edlLine fr (i + j) (pos + sumDur (kept.take j)) (kept.getD j ⟨0, 0⟩) := by
  induction kept with
  | nil =>
      intro i pos
      exact ⟨rfl, fun j hj => absurd hj (Nat.not_lt_zero j)⟩
  | cons r rest ih =>
      intro i pos
      constructor
      · show (edlBodyAux fr i pos (r :: rest)).length = rest.length + 1
        rw [edlBodyAux, List.length_cons,
          (ih (i + 1) (pos + (r.stop - r.start))).1]
      · intro j hj
        cases j with
        | zero =>
            show (edlBodyAux fr i pos (r :: rest)).getD 0 "" = _
            rw [edlBodyAux]
            simp [sumDur]
        | succ j =>
            have hj' : j < rest.length := Nat.lt_of_succ_lt_succ hj
            have hrec := (ih (i + 1) (pos + (r.stop - r.start))).2 j hj'
            rw [edlBodyAux]
            rw [List.getD_cons_succ, List.getD_cons_succ, hrec]
            rw [List.take_succ_cons, sumDur_cons]
            congr 1
            · omega
            · ring

/-- C9: `generate_edl_file` emits the three header lines and then one
fixed-form CMX3600 line per kept range, 1-indexed with the edit number
zero-padded to 3 digits (`edlLine` carries the exact format), where source
in/out are the kept range's own timecodes and the record position starts at
0 and advances by each kept range's duration; for kept ranges `{0,5}` and
`{8,10}` at frame rate 30 the two record in/out pairs are
`00:00:00:00`-`00:00:05:00` and `00:00:05:00`-`00:00:07:00`. -/
theorem edl_export_lines :
    (∀ (fr : ℕ) (kept : List TimeRange),
      (edlBodyAux fr 0 0 kept).length = kept.length ∧
      ∀ j, j < kept.length →
        (edlBodyAux fr 0 0 kept).getD j "" =
          edlLine fr j (sumDur (kept.take j)) (kept.getD j ⟨0, 0⟩)) ∧
    (∀ (name : String) (T : ℚ) (ds : List TimeRange) (fr : ℕ),
      generate_edl_file name T ds fr =
        ("TITLE: " ++ name) :: "FCM: NON-DROP FRAME" :: "" ::
          edlBodyAux fr 0 0 (calculate_kept_ranges T ds)) ∧
    edlBodyAux 30 0 0 [⟨0, 5⟩, ⟨8, 10⟩] =
      ["001  001      V     C        00:00:00:00 00:00:05:00 00:00:00:00 00:00:05:00",
       "002  001      V     C        00:00:08:00 00:00:10:00 00:00:05:00 00:00:07:00"] := by
  refine ⟨fun fr kept => ⟨(edlBodyAux_spec fr kept 0 0).1, fun j hj => ?_⟩,
    fun name T ds fr => rfl, ?_⟩
  · have h := (edlBodyAux_spec fr kept 0 0).2 j hj
    rw [h]
    congr 1
    · omega
    · ring
  · norm_num [edlBodyAux, edlLine, zfill3, seconds_to_timecode, timecodeParts,
      qmod, pyInt, pad2]
    exact ⟨by rfl, by rfl⟩

/-- Witness for C9: the second edit line of the `{0,5}`,`{8,10}` scenario,
obtained from the general characterization at `j = 1`. -/
theorem edl_export_lines_witness :
    (edlBodyAux 30 0 0 [⟨0, 5⟩, ⟨8, 10⟩]).getD 1 "" =
      edlLine 30 1 (sumDur ([(⟨0, 5⟩ : TimeRange), ⟨8, 10⟩].take 1))
        ([(⟨0, 5⟩ : TimeRange), ⟨8, 10⟩].getD 1 ⟨0, 0⟩) :=
  (edl_export_lines.1 30 [⟨0, 5⟩, ⟨8, 10⟩]).2 1 (by norm_num)

/-- C1: for every `total_duration > 0` and every collection of deleted
`TimeRange`s contained in `[0, total_duration]` with `end > start`, the kept
ranges together with the merged deleted ranges partition
`[0, total_duration]` exactly: the union covers the whole interval (no gap),
kept and merged deleted ranges have disjoint interiors, no empty kept range
is produced, every produced range lies inside `[0, total_duration]`, and the
empty deleted collection yields exactly `[{0, total_duration}]`. -/
theorem kept_ranges_partition (T : ℚ) (ds : List TimeRange) (hT : 0 < T)
    (hds : ∀ r ∈ ds, boundedRange T r) :
    (∀ x : ℚ, 0 ≤ x → x ≤ T →
        inRanges (calculate_kept_ranges T ds) x ∨ inRanges (mergeRanges ds) x) ∧
    (∀ k ∈ calculate_kept_ranges T ds, ∀ d ∈ mergeRanges ds,
        min k.stop d.stop ≤ max k.start d.start) ∧
    (∀ k ∈ calculate_kept_ranges T ds, k.start < k.stop) ∧
    (∀ k ∈ calculate_kept_ranges T ds, 0 ≤ k.start ∧ k.stop ≤ T) ∧
    (∀ d ∈ mergeRanges ds, 0 ≤ d.start ∧ d.stop ≤ T) ∧
    (ds = [] → calculate_kept_ranges T ds = [⟨0, T⟩]) := by
  by_cases hnil : ds = []
  · subst hnil
    have hk : calculate_kept_ranges T [] = [⟨0, T⟩] := by
      simp [calculate_kept_ranges]
    have hm : mergeRanges ([] : List TimeRange) = [] := by
      simp [mergeRanges, sortRanges]
    rw [hk, hm]
    refine ⟨?_, ?_, ?_, ?_, ?_, fun _ => rfl⟩
    · intro x hx hxT
      exact Or.inl ⟨⟨0, T⟩, List.mem_singleton.mpr rfl, hx, hxT⟩
    · intro k _ d hd; exact absurd hd (List.not_mem_nil d)
    · intro k hkk; rw [List.mem_singleton] at hkk; subst hkk; exact hT
    · intro k hkk; rw [List.mem_singleton] at hkk; subst hkk
      exact ⟨le_refl _, le_refl _⟩
    · intro d hd; exact absurd hd (List.not_mem_nil d)
  · have hperm := sortRanges_perm ds
    have hkeq : calculate_kept_ranges T ds = keptAux T 0 (sortRanges ds) := by
      rw [calculate_kept_ranges, if_neg hnil]
    rcases hsort : sortRanges ds with _ | ⟨d0, rest⟩
    · exfalso
      rw [hsort] at hperm
      exact hnil (List.Perm.eq_nil hperm.symm)
    · have hs := sortRanges_sorted ds
      rw [hsort] at hs hperm
      rw [hkeq, hsort]
      rw [List.pairwise_cons] at hs
      obtain ⟨hd0rest, hrest⟩ := hs
      have hbsort : ∀ r ∈ d0 :: rest, boundedRange T r :=
        fun r hr => hds r (hperm.subset hr)
      obtain ⟨h00, h0se, h0T⟩ := hbsort d0 (List.mem_cons_self d0 rest)
      have hbrest : ∀ r ∈ rest, boundedRange T r :=
        fun r hr => hbsort r (List.mem_cons_of_mem _ hr)
      obtain ⟨cov, nov, nemp, kb, mb⟩ :=
        kept_merge_main T rest d0 hd0rest hrest h00 h0se h0T hbrest
      have hmerge : mergeRanges ds = mergeAux d0 rest := by
        rw [mergeRanges, hsort]
      rw [hmerge]
      have hmax0 : max 0 d0.stop = d0.stop :=
        max_eq_right (le_of_lt (lt_of_le_of_lt h00 h0se))
      have h0stop : (0 : ℚ) ≤ d0.stop := le_of_lt (lt_of_le_of_lt h00 h0se)
      by_cases h0 : 0 < d0.start
      · have hkept2 : keptAux T 0 (d0 :: rest) =
            ⟨0, d0.start⟩ :: keptAux T d0.stop rest := by
          simp only [keptAux, if_pos h0, hmax0]
        rw [hkept2]
        refine ⟨?_, ?_, ?_, ?_, ?_, fun h => absurd h hnil⟩
        · intro x hx hxT
          by_cases hx1 : x ≤ d0.start
          · exact Or.inl ⟨⟨0, d0.start⟩, List.mem_cons_self _ _, hx, hx1⟩
          · push_neg at hx1
            rcases cov x (le_of_lt hx1) hxT with ⟨k, hk, a, b⟩ | ⟨m, hm, a, b⟩
            · exact Or.inl ⟨k, List.mem_cons_of_mem _ hk, a, b⟩
            · exact Or.inr ⟨m, hm, a, b⟩
        · intro k hk m hm
          rcases List.mem_cons.mp hk with hk0 | hk'
          · subst hk0
            have h1 := (mb m hm).1
            exact le_trans (min_le_left _ _) (le_trans h1 (le_max_right _ _))
          · exact nov k hk' m hm
        · intro k hk
          rcases List.mem_cons.mp hk with hk0 | hk'
          · subst hk0; exact h0
          · exact nemp k hk'
        · intro k hk
          rcases List.mem_cons.mp hk with hk0 | hk'
          · subst hk0
            exact ⟨le_refl _, le_trans (le_of_lt h0se) h0T⟩
          · obtain ⟨h1, h2⟩ := kb k hk'
            exact ⟨le_trans h0stop h1, h2⟩
        · intro m hm
          obtain ⟨h1, h2⟩ := mb m hm
          exact ⟨le_trans h00 h1, h2⟩
      · push_neg at h0
        have h0eq : d0.start = 0 := le_antisymm h0 h00
        have hkept2 : keptAux T 0 (d0 :: rest) = keptAux T d0.stop rest := by
          simp only [keptAux, if_neg (not_lt.mpr h0), hmax0]
        rw [hkept2]
        refine ⟨?_, nov, nemp, ?_, ?_, fun h => absurd h hnil⟩
        · intro x hx hxT
          exact cov x (le_trans (le_of_eq h0eq) hx) hxT
        · intro k hk
          obtain ⟨h1, h2⟩ := kb k hk
          exact ⟨le_trans h0stop h1, h2⟩
        · intro m hm
          obtain ⟨h1, h2⟩ := mb m hm
          exact ⟨le_trans h00 h1, h2⟩

/-- Witness for C1 at `total_duration = 10`, deleted `[{5, 8}]`. -/
theorem kept_ranges_partition_witness :
    (∀ x : ℚ, 0 ≤ x → x ≤ 10 →
        inRanges (calculate_kept_ranges 10 [⟨5, 8⟩]) x ∨
          inRanges (mergeRanges [⟨5, 8⟩]) x) ∧
    (∀ k ∈ calculate_kept_ranges 10 [⟨5, 8⟩], ∀ d ∈ mergeRanges [⟨5, 8⟩],
        min k.stop d.stop ≤ max k.start d.start) ∧
    (∀ k ∈ calculate_kept_ranges 10 [⟨5, 8⟩], k.start < k.stop) ∧
    (∀ k ∈ calculate_kept_ranges 10 [⟨5, 8⟩], 0 ≤ k.start ∧ k.stop ≤ 10) ∧
    (∀ d ∈ mergeRanges [⟨5, 8⟩], 0 ≤ d.start ∧ d.stop ≤ 10) ∧
    (([⟨5, 8⟩] : List TimeRange) = [] →
        calculate_kept_ranges 10 [⟨5, 8⟩] = [⟨0, 10⟩]) :=
  kept_ranges_partition 10 [⟨5, 8⟩] (by norm_num)
    (by
      intro r hr
      rw [List.mem_singleton] at hr
      subst hr
      exact ⟨by norm_num, by norm_num, by norm_num⟩)

lemma currentVersion_append (log : List (ℕ × List Operation)) (v : ℕ)
    (ops : List Operation) :
    currentVersion (log ++ [(v, ops)]) = max (currentVersion log) v := by
  rw [currentVersion, List.foldl_append]
  rfl

/-- C3 amended: a save is rejected as a version conflict exactly when the
proposed version differs from `current_version + 1`; a save with the right
version that also passes segment-id validation is appended and its version
becomes current.  (The functional model returns the unchanged log implicitly
on rejection: the error carries no new log.) -/
theorem save_version_check (st : DBState) (v : ℕ) (ops : List Operation) :
    (saveEdl st v ops = .error .versionConflict ↔
      v ≠ currentVersion st.log + 1) ∧
    (v = currentVersion st.log + 1 → validationOk st ops = true →
      saveEdl st v ops = .ok (st.log ++ [(v, ops)]) ∧
      currentVersion (st.log ++ [(v, ops)]) = v) := by
  constructor
  · by_cases hv : v = currentVersion st.log + 1
    · have hcond : ¬(v ≠ currentVersion st.log + 1) := by simpa using hv
      rw [saveEdl, if_neg hcond]
      rcases hst : st.transcript with _ | segs
      · simp [hv]
      · by_cases hval : validateOps (segs.map (·.id)) ops = true
        · simp [hval, hv]
        · simp [hval, hv]
    · rw [saveEdl, if_pos hv]
      simp [hv]
  · intro hv hval
    have hcond : ¬(v ≠ currentVersion st.log + 1) := by simpa using hv
    constructor
    · rw [saveEdl, if_neg hcond]
      rcases hst : st.transcript with _ | segs
      · rfl
      · simp only [validationOk, hst] at hval
        simp only [hst]
        rw [if_pos hval]
    · rw [currentVersion_append, hv]
      exact max_eq_right (Nat.le_succ _)

/-- C3 counterexample: with one stored segment of id 1 and an empty log, a
save with version `1 = current + 1` but a `delete_segments` operation
referencing the unknown id 2 is rejected — acceptance is not equivalent to
the version check alone. -/
theorem save_version_iff_counterexample :
    ¬ ((isOkB (saveEdl ⟨some [⟨1, "S", 0, 5, "a", []⟩], []⟩ 1
          [.delete_segments [2]]) = true) ↔
        1 = currentVersion ([] : List (ℕ × List Operation)) + 1) := by
  decide

/-- Witness for C3 at an empty log with no transcript and version 1. -/
theorem save_version_check_witness :
    ((saveEdl ⟨none, []⟩ 1 [] = .error .versionConflict ↔
        1 ≠ currentVersion ([] : List (ℕ × List Operation)) + 1) ∧
      (1 = currentVersion ([] : List (ℕ × List Operation)) + 1 →
        validationOk ⟨none, []⟩ [] = true →
        saveEdl ⟨none, []⟩ 1 [] = .ok ([] ++ [(1, [])]) ∧
        currentVersion ([] ++ [(1, ([] : List Operation))]) = 1)) :=
  save_version_check ⟨none, []⟩ 1 []

lemma filterMap_filter_isSome {α β γ : Type} (g : α → Option β)
    (f : β → γ) (l : List α) :
    ((l.filter fun a => (g a).isSome).filterMap fun a => (g a).map f) =
      l.filterMap fun a => (g a).map f := by
  induction l with
  | nil => rfl
  | cons a l ih =>
      rcases hg : g a with _ | b
      · rw [List.filter_cons, if_neg (by simp [hg])]
        simp only [List.filterMap_cons, hg]
        rw [ih]
        rfl
      · rw [List.filter_cons, if_pos (by simp [hg])]
        simp only [List.filterMap_cons, hg]
        rw [ih]

lemma flatMap_filter_of_empty {α β : Type} (F : α → List β) (p : α → Bool)
    (l : List α) (h : ∀ a ∈ l, p a = false → F a = []) :
    (l.filter p).flatMap F = l.flatMap F := by
  induction l with
  | nil => rfl
  | cons a l ih =>
      have ih' := ih fun x hx => h x (List.mem_cons_of_mem _ hx)
      rw [List.filter_cons, List.flatMap_cons]
      rcases hp : p a with _ | _
      · rw [if_neg (by simp), ih', h a (List.mem_cons_self a l) hp]
        rfl
      · rw [if_pos rfl, List.flatMap_cons, ih']

lemma emitRanges_filterKnown (segments : List Segment) (op : Operation) :
    emitRanges segments (filterKnownOp segments op) = emitRanges segments op := by
  cases op with
  | delete_segments ids =>
      simp only [filterKnownOp, emitRanges]
      exact filterMap_filter_isSome (findSeg segments)
        (fun s => (⟨s.start, s.stop⟩ : TimeRange)) ids
  | delete_words items =>
      simp only [filterKnownOp, emitRanges]
      refine flatMap_filter_of_empty _ _ items fun it _ hfalse => ?_
      rcases hf : findSeg segments it.segment_id with _ | s
      · rfl
      · rw [hf] at hfalse
        simp at hfalse
  | delete_silences trs => rfl
  | timeline clips => rfl
  | other tag => rfl

lemma flatMap_map_filterKnown (segments : List Segment) (ops : List Operation) :
    (ops.map (filterKnownOp segments)).flatMap (emitRanges segments) =
      ops.flatMap (emitRanges segments) := by
  induction ops with
  | nil => rfl
  | cons op ops ih =>
      rw [List.map_cons, List.flatMap_cons, List.flatMap_cons, ih,
        emitRanges_filterKnown]

/-- C6 amended: direct EDL saves validate segment ids only for
`delete_segments` operations — a save whose operations contain no
`delete_segments` form (in particular any `delete_words` operation, even
with unknown segment ids) always passes validation and is accepted when the
version is right; the Range Algebra itself silently drops unknown segment
id references of both delete forms. -/
theorem unknown_segment_id_validation (st : DBState) (v : ℕ)
    (ops : List Operation) (segs : List Segment) :
    ((∀ op ∈ ops, isDeleteSegmentsOp op = false) →
      validateOps (segs.map (·.id)) ops = true) ∧
    (st.transcript = some segs → v = currentVersion st.log + 1 →
      (∀ op ∈ ops, isDeleteSegmentsOp op = false) →
      saveEdl st v ops = .ok (st.log ++ [(v, ops)])) ∧
    calculate_deleted_ranges segs (ops.map (filterKnownOp segs)) =
      calculate_deleted_ranges segs ops := by
  have hvalidate : (∀ op ∈ ops, isDeleteSegmentsOp op = false) →
      validateOps (segs.map (·.id)) ops = true := by
    intro h
    rw [validateOps, List.all_eq_true]
    intro op hop
    cases op with
    | delete_segments ids =>
        exact absurd (h _ hop) (by simp [isDeleteSegmentsOp])
    | delete_words items => rfl
    | delete_silences trs => rfl
    | timeline clips => rfl
    | other tag => rfl
  refine ⟨hvalidate, fun hst hv hnone => ?_, ?_⟩
  · have hcond : ¬(v ≠ currentVersion st.log + 1) := by simpa using hv
    rw [saveEdl, if_neg hcond]
    simp only [hst]
    rw [if_pos (hvalidate hnone)]
  · rw [calculate_deleted_ranges, calculate_deleted_ranges,
      flatMap_map_filterKnown]

/-- C6 counterexample: a direct EDL save whose `delete_words` operation
references the unknown segment id 2 is accepted, not rejected. -/
theorem delete_words_unknown_id_accepted :
    saveEdl ⟨some [⟨1, "S", 0, 5, "a", []⟩], []⟩ 1
        [.delete_words [⟨2, [0]⟩]] =
      .ok [(1, [.delete_words [⟨2, [0]⟩]])] ∧
    (([(⟨1, "S", 0, 5, "a", []⟩ : Segment)].map (·.id)).contains 2 = false) := by
  exact ⟨rfl, rfl⟩

/-- Witness for C6: a `delete_words`-only save with unknown id 2 passes
validation and is accepted at version 1 over an empty log. -/
theorem unknown_segment_id_validation_witness :
    saveEdl ⟨some [⟨1, "S", 0, 5, "a", []⟩], []⟩ 1
        [.delete_words [⟨2, [0]⟩]] =
      .ok ([] ++ [(1, [.delete_words [⟨2, [0]⟩]])]) :=
  (unknown_segment_id_validation ⟨some [⟨1, "S", 0, 5, "a", []⟩], []⟩ 1
      [.delete_words [⟨2, [0]⟩]] [⟨1, "S", 0, 5, "a", []⟩]).2.1 rfl rfl
    (by
      intro op hop
      rw [List.mem_singleton] at hop
      subst hop
      rfl)

/-- C10: the deleted ranges computed by the Range Algebra depend only on
the operations carrying one of the three delete-style tags; an operation
with any other tag — including the full-replacement `timeline` form —
contributes no deleted ranges (the total function never fails), so the
export output is unchanged by such operations in the log. -/
theorem deleted_ranges_ignore_non_delete (segments : List Segment)
    (operations : List Operation) (clips : List ClipArg) (tag : String) :
    calculate_deleted_ranges segments (operations.filter isDeleteStyle) =
      calculate_deleted_ranges segments operations ∧
    emitRanges segments (.timeline clips) = [] ∧
    emitRanges segments (.other tag) = [] := by
  refine ⟨?_, rfl, rfl⟩
  rw [calculate_deleted_ranges, calculate_deleted_ranges]
  congr 1
  refine flatMap_filter_of_empty _ _ operations fun op _ hfalse => ?_
  cases op with
  | delete_segments ids => exact absurd hfalse (by simp [isDeleteStyle])
  | delete_words items => exact absurd hfalse (by simp [isDeleteStyle])
  | delete_silences trs => exact absurd hfalse (by simp [isDeleteStyle])
  | timeline clips => rfl
  | other tag => rfl

lemma buildTimeline_eq_filterMap (segments : List Segment)
    (clips : List ClipArg) :
    buildTimeline segments clips = clips.filterMap (resolveClip segments) := by
  induction clips with
  | nil => rfl
  | cons clip rest ih =>
      rcases hsid : clip.segment_id with _ | sid
      · rcases hc : customClip clip with _ | c <;>
          simp [buildTimeline, hsid, hc, resolveClip, List.filterMap_cons, ih]
      · rcases hf : findSeg segments sid with _ | seg
        · rcases hc : customClip clip with _ | c <;>
            simp [buildTimeline, hsid, hf, hc, resolveClip,
              List.filterMap_cons, ih]
        · simp [buildTimeline, hsid, hf, resolveClip, List.filterMap_cons, ih]

/-- C5 amended: `_build_timeline` resolves each clip independently; a known
`segment_id` takes range and text from the segment (explicit start/end
ignored); a clip whose `segment_id` is unknown falls through to the
custom-range branch instead of being dropped, so it still contributes a
clip when it carries `start`/`end` with `end > start`; a clip without
`segment_id` is a custom range accepted iff `end > start`. -/
theorem build_timeline_resolution (segments : List Segment)
    (clips : List ClipArg) (clip : ClipArg) (sid : ℕ) (seg : Segment)
    (s e : ℚ) :
    (buildTimeline segments clips = clips.filterMap (resolveClip segments)) ∧
    (clip.segment_id = some sid → findSeg segments sid = some seg →
      resolveClip segments clip =
        some ⟨some sid, seg.start, seg.stop, seg.text,
          clip.repeatCount.getD 1, clip.speed.getD 1⟩) ∧
    (clip.segment_id = some sid → findSeg segments sid = none →
      resolveClip segments clip = customClip clip) ∧
    (clip.segment_id = none → resolveClip segments clip = customClip clip) ∧
    (clip.start = some s → clip.stop = some e → s < e →
      customClip clip =
        some ⟨none, s, e, clip.text.getD (defaultText s e),
          clip.repeatCount.getD 1, clip.speed.getD 1⟩) ∧
    (clip.start = some s → clip.stop = some e → e ≤ s →
      customClip clip = none) := by
  refine ⟨buildTimeline_eq_filterMap segments clips, ?_, ?_, ?_, ?_, ?_⟩
  · intro h1 h2
    simp [resolveClip, h1, h2]
  · intro h1 h2
    simp [resolveClip, h1, h2]
  · intro h1
    simp [resolveClip, h1]
  · intro h1 h2 h3
    simp [customClip, h1, h2, h3]
  · intro h1 h2 h3
    simp [customClip, h1, h2, not_lt.mpr h3]

/-- C5 counterexample: a clip whose `segment_id` 99 is unknown but which
carries `start = 1`, `end = 2` is not dropped — it becomes a custom-range
timeline entry. -/
theorem build_timeline_unknown_id_counterexample :
    buildTimeline [⟨1, "S", 0, 5, "hello", []⟩]
        [⟨some 99, some 1, some 2, some "x", none, none⟩] =
      [⟨none, 1, 2, "x", 1, 1⟩] := by
  norm_num [buildTimeline, findSeg, customClip]

/-- Witness for C5: the unknown-id clip of the counterexample resolves via
the custom-range branch. -/
theorem build_timeline_resolution_witness :
    resolveClip [⟨1, "S", 0, 5, "hello", []⟩]
        ⟨some 99, some 1, some 2, some "x", none, none⟩ =
      customClip ⟨some 99, some 1, some 2, some "x", none, none⟩ :=
  (build_timeline_resolution [⟨1, "S", 0, 5, "hello", []⟩] []
      ⟨some 99, some 1, some 2, some "x", none, none⟩ 99
      ⟨1, "S", 0, 5, "hello", []⟩ 1 2).2.2.1 rfl rfl

lemma renderPlan_eq_flatMap (timeline : List TimelineClip) :
    renderPlan timeline =
      timeline.flatMap fun c => List.replicate c.repeatCount (clipInstance c) := by
  induction timeline with
  | nil => rfl
  | cons c rest ih => rw [renderPlan, List.flatMap_cons, ih]

lemma renderPlan_length (timeline : List TimelineClip) :
    (renderPlan timeline).length =
      (timeline.map fun c => c.repeatCount).sum := by
  induction timeline with
  | nil => rfl
  | cons c rest ih =>
      rw [renderPlan, List.length_append, List.length_replicate, ih,
        List.map_cons, List.sum_cons]

/-- C7: for every non-empty clip timeline, the render plan is the
concatenation, in clip order, of `repeat` contiguous instances per clip —
exactly `sum of repeat` instances in total — and each instance trims video
and audio to `[start, end]`, resets presentation timestamps, and when
`speed ≠ 1.0` scales video timestamps by `1/speed` and audio tempo by
`speed`. -/
theorem render_plan_structure (timeline : List TimelineClip)
    (hne : timeline ≠ []) :
    renderPlan timeline =
      (timeline.flatMap fun c => List.replicate c.repeatCount (clipInstance c)) ∧
    (renderPlan timeline).length = (timeline.map fun c => c.repeatCount).sum ∧
    ∀ c ∈ timeline,
      (clipInstance c).vchain =
        [.trim c.start c.stop, .setptsReset] ++
          (if c.speed ≠ 1 then [.setptsScale (1 / c.speed)] else []) ∧
      (clipInstance c).achain =
        [.atrim c.start c.stop, .asetptsReset] ++
          (if c.speed ≠ 1 then [.atempo c.speed] else []) :=
  ⟨renderPlan_eq_flatMap timeline, renderPlan_length timeline,
    fun c _ => ⟨rfl, rfl⟩⟩

/-- Witness for C7 at the one-clip timeline `{start 0, end 2, repeat 2,
speed 1}`. -/
theorem render_plan_structure_witness :
    renderPlan [⟨none, 0, 2, "t", 2, 1⟩] =
      ([(⟨none, 0, 2, "t", 2, 1⟩ : TimelineClip)].flatMap fun c =>
        List.replicate c.repeatCount (clipInstance c)) ∧
    (renderPlan [⟨none, 0, 2, "t", 2, 1⟩]).length =
      ([(⟨none, 0, 2, "t", 2, 1⟩ : TimelineClip)].map fun c =>
        c.repeatCount).sum ∧
    ∀ c ∈ [(⟨none, 0, 2, "t", 2, 1⟩ : TimelineClip)],
      (clipInstance c).vchain =
        [.trim c.start c.stop, .setptsReset] ++
          (if c.speed ≠ 1 then [.setptsScale (1 / c.speed)] else []) ∧
      (clipInstance c).achain =
        [.atrim c.start c.stop, .asetptsReset] ++
          (if c.speed ≠ 1 then [.atempo c.speed] else []) :=
  render_plan_structure [⟨none, 0, 2, "t", 2, 1⟩] (List.cons_ne_nil _ _)

lemma runLoop_no_tool (model : ℕ → ModelResponse)
    (render : List TimelineClip → Option String) (segments : List Segment)
    (fuel : ℕ) (st : LoopState)
    (h : (model (st.iteration + 1)).tool_calls = []) :
    runLoop model render segments (fuel + 1) st =
      { st with iteration := st.iteration + 1,
                final_reply := contentOrDone (model (st.iteration + 1)).content } := by
  simp [runLoop, h]

lemma run_reply_def (model : ℕ → ModelResponse)
    (render : List TimelineClip → Option String) (segments : List Segment) :
    (run model render segments).reply =
      if max_iterations ≤ (run model render segments).iterations
      then "达到最大迭代次数"
      else (runLoop model render segments max_iterations
        ⟨[], "", none, false, 0, []⟩).final_reply := rfl

lemma run_first_no_tool (model : ℕ → ModelResponse)
    (render : List TimelineClip → Option String) (segments : List Segment)
    (h : (model 1).tool_calls = []) :
    run model render segments =
      ⟨contentOrDone (model 1).content, [], none, false, 1, []⟩ := by
  have h10 : runLoop model render segments max_iterations
      ⟨[], "", none, false, 0, []⟩ =
      { timeline := [], final_reply := contentOrDone (model 1).content,
        output_video := none, finished := false, iteration := 1,
        renders := [] } :=
    runLoop_no_tool model render segments 9 ⟨[], "", none, false, 0, []⟩ h
  rw [run, h10]
  norm_num [max_iterations]

/-- C4 amended: whenever the loop is live and the model's next response
requests no tool, the loop stops at that iteration with that model's text
as the reply and no further render; `run` returns that text unless 10
iterations have elapsed, in which case the reply is overwritten with the
max-iterations message — the max-iterations reply is produced whenever
iteration 10 is reached, even when the 10th response requested no tool (or
finished).  In particular a first-iteration no-tool response ends the run
at iteration 1 with `finished = false` and no render attempted. -/
theorem agent_loop_no_tool_and_cap (model : ℕ → ModelResponse)
    (render : List TimelineClip → Option String) (segments : List Segment) :
    (∀ (fuel : ℕ) (st : LoopState),
      (model (st.iteration + 1)).tool_calls = [] →
      runLoop model render segments (fuel + 1) st =
        { st with iteration := st.iteration + 1,
                  final_reply := contentOrDone (model (st.iteration + 1)).content }) ∧
    ((model 1).tool_calls = [] →
      run model render segments =
        ⟨contentOrDone (model 1).content, [], none, false, 1, []⟩) ∧
    ((run model render segments).iterations = max_iterations →
      (run model render segments).reply = "达到最大迭代次数") :=
  ⟨fun fuel st h => runLoop_no_tool model render segments fuel st h,
   run_first_no_tool model render segments,
   fun h => by rw [run_reply_def, h, if_pos (le_refl _)]⟩

/-- C4 counterexample: with `stubLateText` the model requests no tool on
iteration 10 and the loop terminates there, but the final reply is the
max-iterations message, not the model's text `"hello"`. -/
theorem agent_loop_no_tool_counterexample :
    (stubLateText 10).tool_calls = [] ∧
    (run stubLateText stubRenderNone []).iterations = 10 ∧
    (run stubLateText stubRenderNone []).finished = false ∧
    (run stubLateText stubRenderNone []).reply ≠
      contentOrDone (stubLateText 10).content := by
  refine ⟨rfl, rfl, rfl, ?_⟩
  decide

/-- Witness for C4: the never-tool stub terminates on iteration 1 with
`finished = false`, no render recorded, and the model's text as reply. -/
theorem agent_loop_no_tool_and_cap_witness :
    run stubNeverTool stubRenderNone [] =
      ⟨contentOrDone (stubNeverTool 1).content, [], none, false, 1, []⟩ :=
  (agent_loop_no_tool_and_cap stubNeverTool stubRenderNone []).2.1 rfl

example : calculate_kept_ranges 10 [⟨5, 8⟩] = [⟨0, 5⟩, ⟨8, 10⟩] := by
  norm_num [calculate_kept_ranges, sortRanges, startLE, keptAux]

example : seconds_to_timecode 5 30 = "00:00:05:00" := by
  norm_num [seconds_to_timecode, timecodeParts, qmod, pyInt, pad2]
  rfl

example :
    calculate_deleted_ranges
      [⟨1, "S", 0, 2, "a", []⟩, ⟨2, "S", 5, 8, "b", []⟩]
      [.delete_segments [2]] = [⟨5, 8⟩] := by
  norm_num [calculate_deleted_ranges, emitRanges, findSeg, mergeRanges,
    sortRanges, startLE, mergeAux]

end TextCut
